import Mathlib

/-!
Verification of the sccache2 snapshot: a shallow embedding of the argument
parsing framework in src/compiler/args.rs and of the S3 storage adapter in
src/cache/s3.rs, together with theorems settling the specification claims.

Tokens (Rust OsString) are modelled as byte lists (List Nat); Rust &str values
are byte lists holding the UTF-8 encoding.  Functions that can panic in
release mode return Option, with none modelling the panic.
-/

namespace Sccache

/-! ## Byte and byte-string primitives (models of u8 and str comparison) -/

/-- Rust u8 Ord::cmp. -/
def byteCmp (a b : Nat) : Ordering :=
  if a < b then .lt else if b < a then .gt else .eq

/-- Rust str Ord::cmp: byte-lexicographic comparison. -/
def lexCmp : List Nat → List Nat → Ordering
  | [], [] => .eq
  | [], _ :: _ => .lt
  | _ :: _, [] => .gt
  | a :: x, b :: y =>
    match byteCmp a b with
    | .eq => lexCmp x y
    | o => o

/-- Rust str::starts_with: startsWithB t p is true when p is a leading run of t. -/
def startsWithB : List Nat → List Nat → Bool
  | _, [] => true
  | [], _ :: _ => false
  | a :: t, b :: p => if a = b then startsWithB t p else false

/-- Byte list of an ASCII string literal, for readable concrete inputs. -/
def ascii (s : String) : List Nat := s.data.map Char.toNat

/-! ## UTF-8 lossy decoding (model of OsStr::to_string_lossy)

Rust validates UTF-8 with the maximal-subparts policy: each rejected prefix is
replaced by one U+FFFD (bytes EF BF BD).  utf8Step reports how many bytes the
head sequence consumes and whether they form a valid scalar value. -/

def replacementChar : List Nat := [0xEF, 0xBF, 0xBD]

/-- UTF-8 continuation byte test (0x80..=0xBF). -/
def isCont (b : Nat) : Bool := 0x80 ≤ b && b ≤ 0xBF

/-- One step of Rust's run_utf8_validation on byte b followed by rest:
returns (bytes consumed, head sequence valid). -/
def utf8Step (b : Nat) (rest : List Nat) : Nat × Bool :=
  if b ≤ 0x7F then (1, true)
  else if b < 0xC2 then (1, false)
  else if b ≤ 0xDF then
    match rest with
    | c1 :: _ => if isCont c1 then (2, true) else (1, false)
    | [] => (1, false)
  else if b ≤ 0xEF then
    let lo := if b = 0xE0 then 0xA0 else 0x80
    let hi := if b = 0xED then 0x9F else 0xBF
    match rest with
    | c1 :: rest1 =>
      if lo ≤ c1 && c1 ≤ hi then
        match rest1 with
        | c2 :: _ => if isCont c2 then (3, true) else (2, false)
        | [] => (2, false)
      else (1, false)
    | [] => (1, false)
  else if b ≤ 0xF4 then
    let lo := if b = 0xF0 then 0x90 else 0x80
    let hi := if b = 0xF4 then 0x8F else 0xBF
    match rest with
    | c1 :: rest1 =>
      if lo ≤ c1 && c1 ≤ hi then
        match rest1 with
        | c2 :: rest2 =>
          if isCont c2 then
            match rest2 with
            | c3 :: _ => if isCont c3 then (4, true) else (3, false)
            | [] => (3, false)
          else (2, false)
        | [] => (2, false)
      else (1, false)
    | [] => (1, false)
  else (1, false)

/-- Fuelled lossy conversion; fuel at least the list length makes the
0-fuel branch unreachable. -/
def lossyF : Nat → List Nat → List Nat
  | _, [] => []
  | 0, _ :: _ => []
  | f + 1, b :: rest =>
    (if (utf8Step b rest).2 then b :: rest.take ((utf8Step b rest).1 - 1)
     else replacementChar) ++ lossyF f (rest.drop ((utf8Step b rest).1 - 1))

/-- Bytes of String::from_utf8_lossy applied to the token. -/
def lossy (l : List Nat) : List Nat := lossyF l.length l

/-- Fuelled UTF-8 validity check. -/
def validUtf8F : Nat → List Nat → Bool
  | _, [] => true
  | 0, _ :: _ => false
  | f + 1, b :: rest =>
    (utf8Step b rest).2 && validUtf8F f (rest.drop ((utf8Step b rest).1 - 1))

/-- The byte list is valid UTF-8. -/
def validUtf8 (l : List Nat) : Bool := validUtf8F l.length l

/-! ## Data model of src/compiler/args.rs -/

/-- ArgError from args.rs; its single variant is UnexpectedEndOfArgs. -/
inductive ArgError where
  | UnexpectedEndOfArgs
deriving DecidableEq

instance exceptDecEq {ε α : Type} [DecidableEq ε] [DecidableEq α] :
    DecidableEq (Except ε α)
  | .ok a, .ok b =>
    if h : a = b then isTrue (by rw [h]) else isFalse (by intro hc; cases hc; exact h rfl)
  | .ok _, .error _ => isFalse (by intro h; cases h)
  | .error _, .ok _ => isFalse (by intro h; cases h)
  | .error e, .error f =>
    if h : e = f then isTrue (by rw [h]) else isFalse (by intro hc; cases hc; exact h rfl)

/-- type ArgResult<T> = Result<T, ArgError>. -/
abbrev ArgResult (T : Type) := Except ArgError T

/-- ArgDisposition: how a value is passed to an argument with a value. -/
inductive ArgDisposition where
  | Separated
  | CanBeConcatenated (d : Option Nat)
  | CanBeSeparated (d : Option Nat)
  | Concatenated (d : Option Nat)
deriving DecidableEq

/-- Argument<T>: representation of a parsed argument. -/
inductive Argument (T : Type) where
  | Raw (s : List Nat)
  | UnknownFlag (s : List Nat)
  | Flag (s : List Nat) (v : T)
  | WithValue (s : List Nat) (v : T) (d : ArgDisposition)
deriving DecidableEq

inductive NormalizedDisposition where
  | Separated
  | Concatenated

/-- Argument::normalize from args.rs. -/
def Argument.normalize {T : Type} : Argument T → NormalizedDisposition → Argument T
  | .WithValue s v (.CanBeConcatenated d), disposition
  | .WithValue s v (.CanBeSeparated d), disposition =>
    .WithValue s v
      (match disposition with
       | .Separated => .Separated
       | .Concatenated => .Concatenated d)
  | a, _ => a

/-- Token sequence yielded by the IntoIter of an Argument (IntoIter::next with
emitted = 0, 1, ...), given the IntoArg conversion of the value type.  The
push of a Some delimiter goes through String::from_utf8(vec![d]), which
panics for a non-ASCII byte; none models that panic. -/
def Argument.emit {T : Type} (intoArg : T → List Nat) : Argument T → Option (List (List Nat))
  | .Raw s | .UnknownFlag s => some [s]
  | .Flag s _ => some [s]
  | .WithValue s v (.CanBeSeparated d) | .WithValue s v (.Concatenated d) =>
    match d with
    | some c => if c ≤ 0x7F then some [s ++ c :: intoArg v] else none
    | none => some [s ++ intoArg v]
  | .WithValue s v .Separated | .WithValue s v (.CanBeConcatenated _) =>
    some [s, intoArg v]

/-- Concatenation of the emissions of successive parse results. -/
def emitAll {T : Type} (intoArg : T → List Nat) : List (Argument T) → Option (List (List Nat))
  | [] => some []
  | a :: rest =>
    match a.emit intoArg, emitAll intoArg rest with
    | some ts, some rs => some (ts ++ rs)
    | _, _ => none

/-- ArgInfo<T>: the description of how an argument may be parsed. -/
inductive ArgInfo (T : Type) where
  | Flag (s : List Nat) (v : T)
  | TakeArg (s : List Nat) (create : List Nat → ArgResult T) (d : ArgDisposition)

/-- ArgInfo::flag_str. -/
def ArgInfo.flagStr {T : Type} : ArgInfo T → List Nat
  | .Flag s _ | .TakeArg s _ _ => s

/-- Body of ArgInfo::process for the Separated disposition: the value is the
next raw token, pulled from the remaining stream (the Bool records that the
get_next_arg closure was invoked). -/
def processSep {T : Type} (s : List Nat) (create : List Nat → ArgResult T)
    (rest : List (List Nat)) : Option (Except ArgError (Argument T) × Bool) :=
  match rest.head? with
  | some a => some ((create a).map (fun v => Argument.WithValue s v .Separated), true)
  | none => some (.error .UnexpectedEndOfArgs, true)

/-- Body of ArgInfo::process for the Concatenated disposition: the value is
arg[len..] where len counts the spelling and, for a Some delimiter, one more
byte.  The slice panics (none) when len exceeds the token length, which is
reachable in release mode when the token equals the spelling exactly. -/
def processCat {T : Type} (s : List Nat) (create : List Nat → ArgResult T)
    (dl : Option Nat) (arg : List Nat) : Option (Except ArgError (Argument T) × Bool) :=
  let len := s.length + (if dl.isSome then 1 else 0)
  if len ≤ arg.length then
    some ((create (arg.drop len)).map (fun v => Argument.WithValue s v (.Concatenated dl)), false)
  else
    none

/-- Body of ArgInfo::process for both CanBe dispositions: the source derives
a Separated descriptor when the token equals the spelling and a Concatenated
one otherwise, runs it (processSep / processCat are exactly those two arms),
and rewraps the outcome; an UnexpectedEndOfArgs error with no delimiter is
converted into an empty concatenated value. -/
def processCanBe {T : Type} (s : List Nat) (create : List Nat → ArgResult T)
    (dl : Option Nat) (arg : List Nat) (rest : List (List Nat)) :
    Option (Except ArgError (Argument T) × Bool) :=
  match (if arg = s then processSep s create rest else processCat s create dl arg) with
  | some (.error .UnexpectedEndOfArgs, pulled) =>
    if dl = none then
      some ((create []).map (fun v => Argument.WithValue s v (.Concatenated dl)), pulled)
    else
      some (.error .UnexpectedEndOfArgs, pulled)
  | some (.ok (.WithValue s2 v (.Concatenated d2)), pulled) =>
    some (.ok (.WithValue s2 v (.CanBeSeparated d2)), pulled)
  | some (.ok (.WithValue s2 v .Separated), pulled) =>
    some (.ok (.WithValue s2 v (.CanBeConcatenated dl)), pulled)
  | other => other

/-- ArgInfo::process. -/
def ArgInfo.process {T : Type} : ArgInfo T → List Nat → List (List Nat) →
    Option (Except ArgError (Argument T) × Bool)
  | .Flag s v, _, _ => some (.ok (.Flag s v), false)
  | .TakeArg s create .Separated, _, rest => processSep s create rest
  | .TakeArg s create (.Concatenated dl), arg, _ => processCat s create dl arg
  | .TakeArg s create (.CanBeSeparated dl), arg, rest
  | .TakeArg s create (.CanBeConcatenated dl), arg, rest => processCanBe s create dl arg rest

/-- ArgInfo::cmp: whether the token matches the argument description, and if
not, how it differs.  Guarded match arms fall through to flag_str comparison
when their guard fails, as in the source. -/
def ArgInfo.cmp {T : Type} (i : ArgInfo T) (arg : List Nat) : Ordering :=
  match i with
  | .TakeArg s _ (.CanBeSeparated none) | .TakeArg s _ (.Concatenated none) =>
    if startsWithB arg s then .eq else lexCmp s arg
  | .TakeArg s _ (.CanBeSeparated (some d)) | .TakeArg s _ (.Concatenated (some d)) =>
    if s.length < arg.length ∧ startsWithB arg s = true then
      byteCmp (arg.getD s.length 0) d
    else
      lexCmp s arg
  | i => lexCmp i.flagStr arg

/-- Fuelled binary search from args.rs: on an Equal comparison it recurses
into the right half and prefers any later match.  Fuel at least the list
length keeps the 0-fuel branch unreachable (each iteration shrinks the
slice). -/
def bsearchF {K X : Type} : Nat → K → List X → (X → K → Ordering) → Option X
  | 0, _, _, _ => none
  | f + 1, key, items, cmp =>
    match items[items.length / 2]? with
    | none => none
    | some x =>
      match cmp x key with
      | .eq =>
        match (if items.length = 1 then none
               else bsearchF f key (items.drop (items.length / 2 + 1)) cmp) with
        | some r => some r
        | none => some x
      | .gt => bsearchF f key (items.take (items.length / 2)) cmp
      | .lt => bsearchF f key (items.drop (items.length / 2 + 1)) cmp

/-- SearchableArgInfo::search for a single sorted slice. -/
def searchList {T : Type} (items : List (ArgInfo T)) (key : List Nat) : Option (ArgInfo T) :=
  bsearchF items.length key items (fun i k => i.cmp k)

/-- SearchableArgInfo::search for a pair of slices, the second complementing
or overriding the first. -/
def searchPair {T : Type} (p : List (ArgInfo T) × List (ArgInfo T)) (key : List Nat) :
    Option (ArgInfo T) :=
  match searchList p.1 key, searchList p.2 key with
  | none, none => none
  | some a, none => some a
  | none, some b => some b
  | some a, some b =>
    match lexCmp a.flagStr b.flagStr with
    | .gt => some a
    | _ => some b

/-- Debug-build table invariant: flag spellings strictly ascending. -/
def wellSorted {T : Type} : List (ArgInfo T) → Bool
  | a :: b :: rest =>
    match lexCmp a.flagStr b.flagStr with
    | .lt => wellSorted (b :: rest)
    | _ => false
  | _ => true

/-- Fuelled run of ArgsIter::next over the whole raw token stream.  Each
token is converted with to_string_lossy for lookup and processing; Raw and
UnknownFlag keep the original bytes; a pulled Separated value advances past
one more raw token.  none models a panic inside process.  Fuel at least the
stream length keeps the 0-fuel branch unreachable. -/
def parseAllF {T : Type} (table : List (ArgInfo T)) :
    Nat → List (List Nat) → Option (List (Except ArgError (Argument T)))
  | _, [] => some []
  | 0, _ :: _ => none
  | f + 1, arg :: rest =>
    let s := lossy arg
    match searchList table s with
    | some i =>
      match i.process s rest with
      | none => none
      | some (item, pulled) =>
        match parseAllF table f (if pulled then rest.tail else rest) with
        | some items => some (item :: items)
        | none => none
    | none =>
      match parseAllF table f rest with
      | some items =>
        some (.ok (if startsWithB s [0x2D] then Argument.UnknownFlag arg
                   else Argument.Raw arg) :: items)
      | none => none

/-- Parse of a whole token stream against a descriptor table. -/
def parseAll {T : Type} (table : List (ArgInfo T)) (args : List (List Nat)) :
    Option (List (Except ArgError (Argument T))) :=
  parseAllF table args.length args

/-- FromArg for OsString: impl returns Ok(arg). -/
def osStringFromArg (arg : List Nat) : ArgResult (List Nat) := .ok arg

/-- FromArg for PathBuf: impl returns Ok(arg.into()). -/
def pathBufFromArg (arg : List Nat) : ArgResult (List Nat) := .ok arg

/-- A descriptor delimiter, when present, is an ASCII byte (table invariant). -/
def ArgDisposition.delimAscii : ArgDisposition → Prop
  | .Concatenated (some d) | .CanBeConcatenated (some d) | .CanBeSeparated (some d) => d ≤ 0x7F
  | _ => True

def ArgInfo.delimAscii {T : Type} : ArgInfo T → Prop
  | .Flag _ _ => True
  | .TakeArg _ _ d => d.delimAscii

/-- A descriptor converter is value-faithful: it accepts every byte string
and IntoArg recovers exactly the accepted bytes, as the OsString and PathBuf
converters in the source do. -/
def ArgInfo.faithful {T : Type} (intoArg : T → List Nat) : ArgInfo T → Prop
  | .Flag _ _ => True
  | .TakeArg _ create _ => ∀ x, ∃ v, create x = .ok v ∧ intoArg v = x

/-- A WithValue result carrying a CanBe disposition (the only results
normalize may change). -/
def Argument.isCanBeValue {T : Type} : Argument T → Bool
  | .WithValue _ _ (.CanBeConcatenated _) | .WithValue _ _ (.CanBeSeparated _) => true
  | _ => false

/-! ## Data model of src/cache/s3.rs -/

/-- Cache result type used by Storage::get in s3.rs. -/
inductive Cache (R E : Type) where
  | Hit (r : R)
  | Miss
  | Error (e : E)

/-- S3Cache::get with its two external callees as parameters: fetch is the
result of s3.get_object (outside src), decode models CacheRead::from
(outside src).  The source collapses any fetch error to Miss and surfaces a
decode failure as Error. -/
def s3CacheGet {F E R : Type} (fetch : Except F (List Nat))
    (decode : List Nat → Except E R) : Cache R E :=
  match fetch with
  | .ok body =>
    match decode body with
    | .ok r => .Hit r
    | .error e => .Error e
  | .error _ => .Miss


theorem byteCmp_eq_iff {a b : Nat} : byteCmp a b = .eq ↔ a = b := by
  unfold byteCmp
  split
  · exact ⟨(fun h => by cases h), (fun h => by omega)⟩
  · split
    · exact ⟨(fun h => by cases h), (fun h => by omega)⟩
    · exact ⟨(fun _ => by omega), (fun _ => rfl)⟩

theorem byteCmp_self (a : Nat) : byteCmp a a = .eq := byteCmp_eq_iff.mpr rfl

theorem lexCmp_eq_iff : ∀ {x y : List Nat}, lexCmp x y = .eq ↔ x = y := by
  intro x
  induction x with
  | nil => intro y; cases y <;> simp [lexCmp]
  | cons a x ih =>
    intro y
    cases y with
    | nil => simp [lexCmp]
    | cons b y =>
      unfold lexCmp
      rcases h : byteCmp a b with _ | _ | _
      · simpa using fun hc => absurd (byteCmp_eq_iff.mpr hc) (by simp [h])
      · rw [byteCmp_eq_iff] at h
        subst h
        simpa using ih
      · simpa using fun hc => absurd (byteCmp_eq_iff.mpr hc) (by simp [h])

theorem lexCmp_self (x : List Nat) : lexCmp x x = .eq := lexCmp_eq_iff.mpr rfl

theorem startsWith_iff : ∀ {p t : List Nat}, startsWithB t p = true ↔ ∃ u, t = p ++ u := by
  intro p
  induction p with
  | nil => intro t; simp [startsWithB]
  | cons b p ih =>
    intro t
    cases t with
    | nil => simp [startsWithB]
    | cons a t =>
      simp only [startsWithB]
      by_cases h : a = b
      · subst h
        simp only [if_pos rfl, List.cons_append, List.cons.injEq, true_and]
        exact ih
      · rw [if_neg h]
        simp [h]

theorem startsWith_refl (x : List Nat) : startsWithB x x = true :=
  startsWith_iff.mpr ⟨[], (List.append_nil x).symm⟩

theorem startsWith_append (p u : List Nat) : startsWithB (p ++ u) p = true :=
  startsWith_iff.mpr ⟨u, rfl⟩

theorem lossyF_of_valid : ∀ (f : Nat), ∀ (g : Nat) (l : List Nat), l.length ≤ f → l.length ≤ g →
    validUtf8F g l = true → lossyF f l = l := by
  intro f
  induction f with
  | zero =>
    intro g l hf _ _
    match l with
    | [] => rfl
    | _ :: _ => simp at hf
  | succ f ih =>
    intro g l hf hg hv
    match l with
    | [] => rfl
    | b :: rest =>
      match g with
      | 0 => simp at hg
      | g + 1 =>
        unfold validUtf8F at hv
        unfold lossyF
        simp only [Bool.and_eq_true] at hv
        rw [if_pos hv.1]
        have h1 : (rest.drop ((utf8Step b rest).1 - 1)).length ≤ f := by
          simp only [List.length_cons] at hf
          simp only [List.length_drop]
          omega
        have h2 : (rest.drop ((utf8Step b rest).1 - 1)).length ≤ g := by
          simp only [List.length_cons] at hg
          simp only [List.length_drop]
          omega
        rw [ih g _ h1 h2 hv.2]
        simp [List.take_append_drop]

theorem lossy_of_valid {l : List Nat} (h : validUtf8 l = true) : lossy l = l :=
  lossyF_of_valid l.length l.length l le_rfl le_rfl h


/-! ## Soundness of the binary search -/

theorem bsearchF_sound {K X : Type} (cmp : X → K → Ordering) :
    ∀ (f : Nat) (key : K) (items : List X) (x : X),
    bsearchF f key items cmp = some x → cmp x key = .eq ∧ x ∈ items := by
  intro f
  induction f with
  | zero => intro key items x h; simp [bsearchF] at h
  | succ f ih =>
    intro key items x h
    unfold bsearchF at h
    rcases hm : items[items.length / 2]? with _ | m <;> rw [hm] at h <;> dsimp only at h
    · cases h
    · have hmem : m ∈ items := by
        obtain ⟨hlt, hget⟩ := List.getElem?_eq_some.mp hm
        exact hget ▸ List.getElem_mem hlt
      rcases hc : cmp m key with _ | _ | _ <;> rw [hc] at h <;> dsimp only at h
      · obtain ⟨h1, h2⟩ := ih key _ x h
        exact ⟨h1, List.mem_of_mem_drop h2⟩
      · by_cases hl : items.length = 1
        · rw [if_pos hl] at h
          cases h
          exact ⟨hc, hmem⟩
        · rw [if_neg hl] at h
          rcases hr : bsearchF f key (items.drop (items.length / 2 + 1)) cmp with _ | r <;>
            rw [hr] at h <;> dsimp only at h <;> cases h
          · exact ⟨hc, hmem⟩
          · obtain ⟨h1, h2⟩ := ih key _ x hr
            exact ⟨h1, List.mem_of_mem_drop h2⟩
      · obtain ⟨h1, h2⟩ := ih key _ x h
        exact ⟨h1, List.mem_of_mem_take h2⟩

theorem searchList_sound {T : Type} {items : List (ArgInfo T)} {key : List Nat}
    {i : ArgInfo T} (h : searchList items key = some i) :
    i.cmp key = .eq ∧ i ∈ items :=
  bsearchF_sound _ items.length key items i h

/-! ## Inversion of ArgInfo::cmp on a match -/

theorem cmp_flag_eq {T : Type} {s arg : List Nat} {v : T}
    (h : (ArgInfo.Flag s v).cmp arg = .eq) : s = arg := by
  simp only [ArgInfo.cmp, ArgInfo.flagStr] at h
  exact lexCmp_eq_iff.mp h

theorem cmp_sep_eq {T : Type} {s arg : List Nat} {create : List Nat → ArgResult T}
    (h : (ArgInfo.TakeArg s create .Separated).cmp arg = .eq) : s = arg := by
  simp only [ArgInfo.cmp, ArgInfo.flagStr] at h
  exact lexCmp_eq_iff.mp h

theorem cmp_cbc_eq {T : Type} {s arg : List Nat} {create : List Nat → ArgResult T}
    {dl : Option Nat}
    (h : (ArgInfo.TakeArg s create (.CanBeConcatenated dl)).cmp arg = .eq) : s = arg := by
  simp only [ArgInfo.cmp, ArgInfo.flagStr] at h
  exact lexCmp_eq_iff.mp h

theorem cmp_catNone_eq {T : Type} {s arg : List Nat} {create : List Nat → ArgResult T}
    (h : (ArgInfo.TakeArg s create (.Concatenated none)).cmp arg = .eq) :
    ∃ u, arg = s ++ u := by
  simp only [ArgInfo.cmp] at h
  split at h
  · next hs => exact startsWith_iff.mp hs
  · exact ⟨[], by rw [← lexCmp_eq_iff.mp h, List.append_nil]⟩

theorem cmp_cbsNone_eq {T : Type} {s arg : List Nat} {create : List Nat → ArgResult T}
    (h : (ArgInfo.TakeArg s create (.CanBeSeparated none)).cmp arg = .eq) :
    ∃ u, arg = s ++ u := by
  simp only [ArgInfo.cmp] at h
  split at h
  · next hs => exact startsWith_iff.mp hs
  · exact ⟨[], by rw [← lexCmp_eq_iff.mp h, List.append_nil]⟩

theorem cmp_some_aux {s arg : List Nat} {d : Nat}
    (h : (if s.length < arg.length ∧ startsWithB arg s = true then
            byteCmp (arg.getD s.length 0) d
          else lexCmp s arg) = .eq) :
    (∃ u, arg = s ++ d :: u) ∨ arg = s := by
  split at h
  · next hg =>
    obtain ⟨hlen, hsw⟩ := hg
    obtain ⟨u, rfl⟩ := startsWith_iff.mp hsw
    have hb : (s ++ u).getD s.length 0 = d := byteCmp_eq_iff.mp h
    rw [List.getD_append_right s u 0 s.length le_rfl, Nat.sub_self] at hb
    cases u with
    | nil => simp at hlen
    | cons c u =>
      left
      exact ⟨u, by simp only [List.getD_cons_zero] at hb; rw [hb]⟩
  · exact .inr (lexCmp_eq_iff.mp h).symm

theorem cmp_catSome_eq {T : Type} {s arg : List Nat} {create : List Nat → ArgResult T}
    {d : Nat} (h : (ArgInfo.TakeArg s create (.Concatenated (some d))).cmp arg = .eq) :
    (∃ u, arg = s ++ d :: u) ∨ arg = s := by
  simp only [ArgInfo.cmp] at h
  exact cmp_some_aux h

theorem cmp_cbsSome_eq {T : Type} {s arg : List Nat} {create : List Nat → ArgResult T}
    {d : Nat} (h : (ArgInfo.TakeArg s create (.CanBeSeparated (some d))).cmp arg = .eq) :
    (∃ u, arg = s ++ d :: u) ∨ arg = s := by
  simp only [ArgInfo.cmp] at h
  exact cmp_some_aux h


/-! ## Characterization of ArgInfo::process outcomes -/

theorem processSep_eq_ok {T : Type} {s : List Nat} {create : List Nat → ArgResult T}
    {rest : List (List Nat)} {a : Argument T} {pulled : Bool}
    (h : processSep s create rest = some (.ok a, pulled)) :
    pulled = true ∧ ∃ x rest2 v, rest = x :: rest2 ∧ create x = .ok v ∧
      a = .WithValue s v .Separated := by
  cases rest with
  | nil => simp [processSep] at h
  | cons x rest2 =>
    unfold processSep at h
    simp only [List.head?] at h
    rcases hc : create x with e | v <;> rw [hc] at h <;> simp only [Except.map] at h
    · simp at h
    · cases h
      exact ⟨rfl, x, rest2, v, rfl, hc, rfl⟩

theorem processCat_eq_ok {T : Type} {s : List Nat} {create : List Nat → ArgResult T}
    {dl : Option Nat} {arg : List Nat} {a : Argument T} {pulled : Bool}
    (h : processCat s create dl arg = some (.ok a, pulled)) :
    pulled = false ∧ s.length + (if dl.isSome then 1 else 0) ≤ arg.length ∧
    ∃ v, create (arg.drop (s.length + (if dl.isSome then 1 else 0))) = .ok v ∧
      a = .WithValue s v (.Concatenated dl) := by
  simp only [processCat] at h
  by_cases hlen : s.length + (if dl.isSome then 1 else 0) ≤ arg.length
  · rw [if_pos hlen] at h
    rcases hc : create (arg.drop (s.length + (if dl.isSome then 1 else 0))) with e | v <;>
      rw [hc] at h <;> simp only [Except.map] at h
    · simp at h
    · cases h
      exact ⟨rfl, hlen, v, by simp [hc], rfl⟩
  · rw [if_neg hlen] at h
    cases h

theorem processCat_of_total {T : Type} {s : List Nat} {create : List Nat → ArgResult T}
    {dl : Option Nat} {arg : List Nat}
    (htot : ∀ x, ∃ v, create x = .ok v)
    (hlen : s.length + (if dl.isSome then 1 else 0) ≤ arg.length) :
    ∃ v, create (arg.drop (s.length + (if dl.isSome then 1 else 0))) = .ok v ∧
      processCat s create dl arg =
        some (.ok (.WithValue s v (.Concatenated dl)), false) := by
  obtain ⟨v, hv⟩ := htot (arg.drop (s.length + (if dl.isSome then 1 else 0)))
  exact ⟨v, hv, by simp [processCat, hlen, hv, Except.map]⟩


theorem drop_append_cons (s : List Nat) (d : Nat) (u : List Nat) :
    (s ++ d :: u).drop (s.length + 1) = u := by
  induction s with
  | nil => simp
  | cons a s ih => simp only [List.cons_append, List.length_cons]; exact ih

/-! ## Scenario equations for processCanBe -/

theorem processCanBe_sep_cons {T : Type} {s : List Nat} {create : List Nat → ArgResult T}
    {dl : Option Nat} {x : List Nat} {rest2 : List (List Nat)} {v : T}
    (hx : create x = .ok v) :
    processCanBe s create dl s (x :: rest2) =
      some (.ok (.WithValue s v (.CanBeConcatenated dl)), true) := by
  unfold processCanBe
  rw [if_pos rfl]
  rw [show processSep s create (x :: rest2) =
        some ((create x).map (fun v => Argument.WithValue s v .Separated), true) from rfl, hx]
  rfl

theorem processCanBe_sep_nil_none {T : Type} {s : List Nat}
    {create : List Nat → ArgResult T} {v : T} (hv : create [] = .ok v) :
    processCanBe s create none s [] =
      some (.ok (.WithValue s v (.Concatenated none)), true) := by
  unfold processCanBe
  rw [if_pos rfl]
  rw [show processSep s create ([] : List (List Nat)) =
        some (.error .UnexpectedEndOfArgs, true) from rfl]
  simp only [if_pos rfl]
  rw [hv]
  rfl

theorem processCanBe_sep_nil_some {T : Type} {s : List Nat}
    {create : List Nat → ArgResult T} {d : Nat} :
    processCanBe s create (some d) s [] = some (.error .UnexpectedEndOfArgs, true) := by
  unfold processCanBe
  rw [if_pos rfl]
  rfl

theorem processCanBe_cat {T : Type} {s : List Nat} {create : List Nat → ArgResult T}
    {dl : Option Nat} {arg : List Nat} {rest : List (List Nat)} {v : T}
    (has : arg ≠ s)
    (hlen : s.length + (if dl.isSome then 1 else 0) ≤ arg.length)
    (hv : create (arg.drop (s.length + (if dl.isSome then 1 else 0))) = .ok v) :
    processCanBe s create dl arg rest =
      some (.ok (.WithValue s v (.CanBeSeparated dl)), false) := by
  unfold processCanBe
  rw [if_neg has]
  rw [show processCat s create dl arg =
        some ((create (arg.drop (s.length + (if dl.isSome then 1 else 0)))).map
          (fun v => Argument.WithValue s v (.Concatenated dl)), false) from by
        simp [processCat, hlen]]
  rw [hv]
  rfl

theorem process_flag_eqn {T : Type} (s : List Nat) (v : T) (arg : List Nat)
    (rest : List (List Nat)) :
    (ArgInfo.Flag s v).process arg rest = some (.ok (.Flag s v), false) := rfl

theorem process_sep_eqn {T : Type} (s : List Nat) (create : List Nat → ArgResult T)
    (arg : List Nat) (rest : List (List Nat)) :
    (ArgInfo.TakeArg s create .Separated).process arg rest = processSep s create rest := rfl

theorem process_cat_eqn {T : Type} (s : List Nat) (create : List Nat → ArgResult T)
    (dl : Option Nat) (arg : List Nat) (rest : List (List Nat)) :
    (ArgInfo.TakeArg s create (.Concatenated dl)).process arg rest =
      processCat s create dl arg := rfl

theorem process_cbs_eqn {T : Type} (s : List Nat) (create : List Nat → ArgResult T)
    (dl : Option Nat) (arg : List Nat) (rest : List (List Nat)) :
    (ArgInfo.TakeArg s create (.CanBeSeparated dl)).process arg rest =
      processCanBe s create dl arg rest := rfl

theorem process_cbc_eqn {T : Type} (s : List Nat) (create : List Nat → ArgResult T)
    (dl : Option Nat) (arg : List Nat) (rest : List (List Nat)) :
    (ArgInfo.TakeArg s create (.CanBeConcatenated dl)).process arg rest =
      processCanBe s create dl arg rest := rfl

/-- Emission of one successfully processed token group reproduces exactly the
consumed raw tokens: the token itself, plus the one pulled token when the
Separated path consumed it. -/
theorem process_ok_emit {T : Type} (intoArg : T → List Nat) (i : ArgInfo T)
    (hf : i.faithful intoArg) (hd : i.delimAscii)
    {arg : List Nat} {rest : List (List Nat)} {a : Argument T} {pulled : Bool}
    (hcmp : i.cmp arg = .eq) (hp : i.process arg rest = some (.ok a, pulled)) :
    a.emit intoArg = some (arg :: (if pulled then rest.take 1 else [])) := by
  cases i with
  | Flag s v =>
    obtain rfl := cmp_flag_eq hcmp
    rw [process_flag_eqn] at hp
    cases hp
    simp [Argument.emit]
  | TakeArg s create disp =>
    have htot : ∀ x, ∃ v, create x = .ok v := fun x => by
      obtain ⟨v, hv, _⟩ := hf x; exact ⟨v, hv⟩
    cases disp with
    | Separated =>
      obtain rfl := cmp_sep_eq hcmp
      rw [process_sep_eqn] at hp
      obtain ⟨rfl, x, rest2, v, rfl, hcx, rfl⟩ := processSep_eq_ok hp
      obtain ⟨v', hv', hi⟩ := hf x
      rw [hcx] at hv'
      cases hv'
      simp [Argument.emit, hi, List.take]
    | Concatenated dl =>
      rw [process_cat_eqn] at hp
      obtain ⟨rfl, hlen, v, hcv, rfl⟩ := processCat_eq_ok hp
      cases dl with
      | none =>
        obtain ⟨u, rfl⟩ := cmp_catNone_eq hcmp
        simp only [Option.isSome_none, Bool.false_eq_true, if_false, Nat.add_zero] at hcv
        rw [List.drop_left] at hcv
        obtain ⟨v', hv', hi⟩ := hf u
        rw [hcv] at hv'
        cases hv'
        simp [Argument.emit, hi]
      | some d =>
        rcases cmp_catSome_eq hcmp with ⟨u, rfl⟩ | rfl
        · simp only [Option.isSome_some, if_true] at hcv hlen
          rw [drop_append_cons] at hcv
          obtain ⟨v', hv', hi⟩ := hf u
          rw [hcv] at hv'
          cases hv'
          have hda : d ≤ 0x7F := hd
          simp [Argument.emit, hi, hda]
        · simp only [Option.isSome_some, if_true] at hlen
          omega
    | CanBeSeparated dl =>
      rw [process_cbs_eqn] at hp
      by_cases has : arg = s
      · subst has
        cases rest with
        | nil =>
          cases dl with
          | none =>
            obtain ⟨v, hv⟩ := htot []
            rw [processCanBe_sep_nil_none hv] at hp
            cases hp
            obtain ⟨v', hv', hi⟩ := hf []
            rw [hv] at hv'
            cases hv'
            simp [Argument.emit, hi]
          | some d =>
            rw [processCanBe_sep_nil_some] at hp
            simp at hp
        | cons x rest2 =>
          obtain ⟨v, hv⟩ := htot x
          rw [processCanBe_sep_cons hv] at hp
          cases hp
          obtain ⟨v', hv', hi⟩ := hf x
          rw [hv] at hv'
          cases hv'
          simp [Argument.emit, hi, List.take]
      · have hlen : s.length + (if dl.isSome then 1 else 0) ≤ arg.length := by
          cases dl with
          | none =>
            obtain ⟨u, rfl⟩ := cmp_cbsNone_eq hcmp
            simp
          | some d =>
            rcases cmp_cbsSome_eq hcmp with ⟨u, rfl⟩ | rfl
            · simp
            · exact absurd rfl has
        obtain ⟨v, hv⟩ := htot (arg.drop (s.length + (if dl.isSome then 1 else 0)))
        rw [processCanBe_cat has hlen hv] at hp
        cases hp
        cases dl with
        | none =>
          obtain ⟨u, rfl⟩ := cmp_cbsNone_eq hcmp
          simp only [Option.isSome_none, Bool.false_eq_true, if_false, Nat.add_zero] at hv
          rw [List.drop_left] at hv
          obtain ⟨v', hv', hi⟩ := hf u
          rw [hv] at hv'
          cases hv'
          simp [Argument.emit, hi]
        | some d =>
          rcases cmp_cbsSome_eq hcmp with ⟨u, rfl⟩ | rfl
          · simp only [Option.isSome_some, if_true] at hv
            rw [drop_append_cons] at hv
            obtain ⟨v', hv', hi⟩ := hf u
            rw [hv] at hv'
            cases hv'
            have hda : d ≤ 0x7F := hd
            simp [Argument.emit, hi, hda]
          · exact absurd rfl has
    | CanBeConcatenated dl =>
      obtain rfl := cmp_cbc_eq hcmp
      rw [process_cbc_eqn] at hp
      cases rest with
      | nil =>
        cases dl with
        | none =>
          obtain ⟨v, hv⟩ := htot []
          rw [processCanBe_sep_nil_none hv] at hp
          cases hp
          obtain ⟨v', hv', hi⟩ := hf []
          rw [hv] at hv'
          cases hv'
          simp [Argument.emit, hi]
        | some d =>
          rw [processCanBe_sep_nil_some] at hp
          simp at hp
      | cons x rest2 =>
        obtain ⟨v, hv⟩ := htot x
        rw [processCanBe_sep_cons hv] at hp
        cases hp
        obtain ⟨v', hv', hi⟩ := hf x
        rw [hv] at hv'
        cases hv'
        simp [Argument.emit, hi, List.take]


/-- Round trip over the fuelled parser: an error-free parse of a stream of
valid UTF-8 tokens emits back exactly the input stream. -/
theorem parseAllF_roundtrip {T : Type} (table : List (ArgInfo T)) (intoArg : T → List Nat)
    (hf : ∀ i ∈ table, i.faithful intoArg) (hd : ∀ i ∈ table, i.delimAscii) :
    ∀ (fuel : Nat) (args : List (List Nat)) (rs : List (Argument T)),
    args.length ≤ fuel → (∀ t ∈ args, validUtf8 t = true) →
    parseAllF table fuel args = some (rs.map Except.ok) →
    emitAll intoArg rs = some args := by
  intro fuel
  induction fuel with
  | zero =>
    intro args rs hlen hv hp
    match args with
    | [] =>
      rw [show parseAllF table 0 ([] : List (List Nat)) = some [] from rfl] at hp
      cases rs with
      | nil => rfl
      | cons r rs' => simp at hp
    | _ :: _ => simp at hlen
  | succ f ih =>
    intro args rs hlen hv hp
    match args with
    | [] =>
      rw [show parseAllF table (f + 1) ([] : List (List Nat)) = some [] from rfl] at hp
      cases rs with
      | nil => rfl
      | cons r rs' => simp at hp
    | arg :: rest =>
      have hva : validUtf8 arg = true := hv arg (List.mem_cons_self _ _)
      have hlossy : lossy arg = arg := lossy_of_valid hva
      have hlenr : rest.length ≤ f := by
        simp only [List.length_cons] at hlen; omega
      have hvr : ∀ t ∈ rest, validUtf8 t = true := fun t ht => hv t (List.mem_cons_of_mem _ ht)
      simp only [parseAllF] at hp
      rw [hlossy] at hp
      rcases hs : searchList table arg with _ | i <;> rw [hs] at hp <;> dsimp only at hp
      · -- no descriptor matches: UnknownFlag or Raw, original token kept
        rcases hrec : parseAllF table f rest with _ | items <;> rw [hrec] at hp <;>
          dsimp only at hp
        · cases hp
        · simp only [Option.some.injEq] at hp
          cases rs with
          | nil => simp at hp
          | cons r rs' =>
            rw [List.map_cons] at hp
            rw [List.cons.injEq] at hp
            obtain ⟨hr, hitems⟩ := hp
            have hrec' : emitAll intoArg rs' = some rest := ih rest rs' hlenr hvr (by rw [hrec, hitems])
            have hremit : r.emit intoArg = some [arg] := by
              have hr2 : r = (if startsWithB arg [0x2D] then Argument.UnknownFlag arg
                          else Argument.Raw arg) := ((Except.ok.injEq _ _).mp hr).symm
              rw [hr2]
              split <;> simp [Argument.emit]
            simp only [emitAll]
            rw [hremit, hrec']
            rfl
      · -- matched descriptor: emission of the group reproduces its tokens
        obtain ⟨hcmp, hmem⟩ := searchList_sound hs
        rcases hpr : i.process arg rest with _ | ⟨item, pulled⟩ <;> rw [hpr] at hp <;>
          dsimp only at hp
        · cases hp
        · rcases hrec : parseAllF table f (if pulled then rest.tail else rest) with _ | items <;>
            rw [hrec] at hp <;> dsimp only at hp
          · cases hp
          · simp only [Option.some.injEq] at hp
            cases rs with
            | nil => simp at hp
            | cons r rs' =>
              rw [List.map_cons, List.cons.injEq] at hp
              obtain ⟨hitem, hitems⟩ := hp
              subst hitem
              have hlen' : (if pulled then rest.tail else rest).length ≤ f := by
                split
                · simp only [List.length_tail]; omega
                · exact hlenr
              have hv' : ∀ t ∈ (if pulled then rest.tail else rest), validUtf8 t = true := by
                intro t ht
                apply hvr
                revert ht
                split
                · intro ht; exact List.mem_of_mem_drop (List.drop_one _ ▸ ht)
                · exact id
              have hrec' : emitAll intoArg rs' = some (if pulled then rest.tail else rest) :=
                ih _ rs' hlen' hv' (by rw [hrec, hitems])
              have hemit := process_ok_emit intoArg i (hf i hmem) (hd i hmem) hcmp hpr
              simp only [emitAll]
              rw [hemit, hrec']
              cases pulled with
              | false => rfl
              | true =>
                show some ((arg :: List.take 1 rest) ++ rest.tail) = some (arg :: rest)
                rw [List.cons_append, ← List.drop_one, List.take_append_drop]


/-! ## Helper equations for single-descriptor parses -/

theorem searchList_singleton {T : Type} {i : ArgInfo T} {k : List Nat}
    (h : i.cmp k = .eq) : searchList [i] k = some i := by
  simp [searchList, bsearchF, h]

theorem parseAll_single {T : Type} {i : ArgInfo T} {tok : List Nat}
    (hcmp : i.cmp (lossy tok) = .eq) :
    parseAll [i] [tok] = (i.process (lossy tok) []).map (fun ip => [ip.1]) := by
  simp only [parseAll, List.length_cons, List.length_nil, parseAllF]
  rw [searchList_singleton hcmp]
  dsimp only
  rcases hpr : i.process (lossy tok) [] with _ | ⟨item, pulled⟩
  · rfl
  · cases pulled <;> rfl

theorem cmp_self_cbs_none {T : Type} (sp : List Nat) (create : List Nat → ArgResult T) :
    (ArgInfo.TakeArg sp create (.CanBeSeparated none)).cmp sp = .eq := by
  unfold ArgInfo.cmp
  dsimp only
  rw [if_pos (startsWith_refl sp)]

theorem cmp_self_cbs_some {T : Type} (sp : List Nat) (create : List Nat → ArgResult T)
    (d : Nat) : (ArgInfo.TakeArg sp create (.CanBeSeparated (some d))).cmp sp = .eq := by
  unfold ArgInfo.cmp
  dsimp only
  rw [if_neg (fun h => lt_irrefl _ h.1)]
  exact lexCmp_self sp

theorem cmp_self_cbc {T : Type} (sp : List Nat) (create : List Nat → ArgResult T)
    (dl : Option Nat) : (ArgInfo.TakeArg sp create (.CanBeConcatenated dl)).cmp sp = .eq :=
  lexCmp_self sp

theorem processCanBe_sep_nil_none_any {T : Type} {s : List Nat}
    {create : List Nat → ArgResult T} :
    processCanBe s create none s [] =
      some ((create []).map (fun v => Argument.WithValue s v (.Concatenated none)), true) := by
  unfold processCanBe
  rw [if_pos rfl]
  rfl

/-! ## Claim C1 -/

/-- C1 counterexample: with a Concatenated(None) descriptor for "-foo" and the
single non-UTF-8 token "-foo" ++ [0xFF], the parser accepts without error, but
emitting the result yields "-foo" ++ [EF BF BD] (the lossy view), not the
original token: the round trip is not byte-exact. -/
theorem c1_counterexample :
    parseAll [ArgInfo.TakeArg (ascii "-foo") Except.ok (.Concatenated none)]
        [ascii "-foo" ++ [0xFF]] =
      some [Except.ok (Argument.WithValue (ascii "-foo") [0xEF, 0xBF, 0xBD]
        (.Concatenated none))] ∧
    emitAll (fun v => v)
        [Argument.WithValue (ascii "-foo") [0xEF, 0xBF, 0xBD] (.Concatenated none)] =
      some [ascii "-foo" ++ [0xEF, 0xBF, 0xBD]] ∧
    [ascii "-foo" ++ [0xEF, 0xBF, 0xBD]] ≠ [ascii "-foo" ++ [0xFF]] :=
  ⟨by decide, by decide, by decide⟩

/-- C1 (amended): for a table whose converters are value-faithful and whose
delimiters are ASCII, any input token sequence of valid UTF-8 tokens that the
parser accepts without error is reproduced byte-exactly by emitting each
parse result in order with no Normalize applied. -/
theorem c1_roundtrip_valid_utf8 {T : Type} (table : List (ArgInfo T))
    (intoArg : T → List Nat)
    (hf : ∀ i ∈ table, i.faithful intoArg) (hd : ∀ i ∈ table, i.delimAscii)
    (args : List (List Nat)) (rs : List (Argument T))
    (hv : ∀ t ∈ args, validUtf8 t = true)
    (hp : parseAll table args = some (rs.map Except.ok)) :
    emitAll intoArg rs = some args :=
  parseAllF_roundtrip table intoArg hf hd args.length args rs le_rfl hv hp

theorem c1_witness :
    emitAll (fun v => v)
      [Argument.WithValue (ascii "-hoge") (ascii "x") (.Concatenated none),
       Argument.Raw (ascii "plain")] = some [ascii "-hogex", ascii "plain"] := by
  refine c1_roundtrip_valid_utf8
    [ArgInfo.TakeArg (ascii "-hoge") Except.ok (.Concatenated none)] (fun v => v)
    ?_ ?_ [ascii "-hogex", ascii "plain"] _ (by decide) rfl
  · intro i hi
    rw [List.mem_singleton] at hi
    subst hi
    exact fun x => ⟨x, rfl, rfl⟩
  · intro i hi
    rw [List.mem_singleton] at hi
    subst hi
    trivial

/-! ## Claim C2 -/

def tblC2 : List (ArgInfo (List Nat)) :=
  [ArgInfo.TakeArg (ascii "-a") Except.ok (.Concatenated none),
   ArgInfo.Flag (ascii "-aa") [],
   ArgInfo.Flag (ascii "-ac") []]

/-- C2 counterexample: tblC2 is well sorted and its Concatenated(None)
descriptor "-a" matches the token "-ab" (comparison Equal), yet search
returns None: the binary search discards the left half containing the match
after comparing "-aa" < "-ab" at the middle. -/
theorem c2_counterexample :
    wellSorted tblC2 = true ∧
    (∃ i, i ∈ tblC2 ∧ i.cmp (ascii "-ab") = .eq) ∧
    (searchList tblC2 (ascii "-ab")).isNone = true :=
  ⟨rfl,
   ⟨ArgInfo.TakeArg (ascii "-a") Except.ok (.Concatenated none),
    List.mem_cons_self _ _, rfl⟩,
   rfl⟩

/-- C2 (amended): search is sound: every descriptor it returns matches the
token (its comparison yields Equal) and belongs to the table, and when no
descriptor in the table matches the token, search returns None.  Search does
not, in general, return the longest matching spelling, and may return None
even though a descriptor matches. -/
theorem c2_search_sound {T : Type} (table : List (ArgInfo T)) (key : List Nat) :
    (∀ i, searchList table key = some i → i.cmp key = .eq ∧ i ∈ table) ∧
    ((∀ i ∈ table, i.cmp key ≠ .eq) → searchList table key = none) := by
  constructor
  · exact fun i h => searchList_sound h
  · intro hno
    rcases h : searchList table key with _ | i
    · rfl
    · obtain ⟨hc, hm⟩ := searchList_sound h
      exact absurd hc (hno i hm)

theorem c2_witness :
    ((ArgInfo.Flag (ascii "-a") (0 : Nat)).cmp (ascii "-a") = .eq ∧
      ArgInfo.Flag (ascii "-a") (0 : Nat) ∈ [ArgInfo.Flag (ascii "-a") (0 : Nat)]) ∧
    searchList [ArgInfo.Flag (ascii "-a") (0 : Nat)] (ascii "-b") = none :=
  ⟨(c2_search_sound [ArgInfo.Flag (ascii "-a") (0 : Nat)] (ascii "-a")).1 _ rfl,
   (c2_search_sound [ArgInfo.Flag (ascii "-a") (0 : Nat)] (ascii "-b")).2 (by decide)⟩

/-! ## Claim C3 -/

/-- C3 counterexample: the token "-hoge" ++ [0x80] is not valid UTF-8; the
parser matches the Concatenated(None) descriptor "-hoge" on its lossy view
and hands the converter [EF BF BD] (the replacement character), not the
original byte [0x80]: the converter does not receive the original token
bytes minus the matched spelling. -/
theorem c3_counterexample :
    parseAll [ArgInfo.TakeArg (ascii "-hoge") Except.ok (.Concatenated none)]
        [ascii "-hoge" ++ [0x80]] =
      some [Except.ok (Argument.WithValue (ascii "-hoge") [0xEF, 0xBF, 0xBD]
        (.Concatenated none))] ∧
    ([0xEF, 0xBF, 0xBD] : List Nat) ≠ [0x80] :=
  ⟨by decide, by decide⟩

/-- C3 (amended): for a valid UTF-8 token matched to a take-value descriptor
with a Concatenated disposition, the byte sequence passed to the value
converter is exactly the original token bytes minus the matched spelling and
(when present) the delimiter byte; for a non-UTF-8 token the converter
receives the lossy view of those bytes instead. -/
theorem c3_converter_bytes {T : Type} (sp tok : List Nat)
    (create : List Nat → ArgResult T) (hv : validUtf8 tok = true) :
    (startsWithB tok sp = true →
      parseAll [ArgInfo.TakeArg sp create (.Concatenated none)] [tok] =
        some [(create (tok.drop sp.length)).map
          (fun v => Argument.WithValue sp v (.Concatenated none))]) ∧
    (∀ d, startsWithB tok (sp ++ [d]) = true →
      parseAll [ArgInfo.TakeArg sp create (.Concatenated (some d))] [tok] =
        some [(create (tok.drop (sp.length + 1))).map
          (fun v => Argument.WithValue sp v (.Concatenated (some d)))]) := by
  have hlossy : lossy tok = tok := lossy_of_valid hv
  constructor
  · intro hpre
    have hcmp : (ArgInfo.TakeArg sp create (.Concatenated none)).cmp (lossy tok) = .eq := by
      rw [hlossy]
      unfold ArgInfo.cmp
      dsimp only
      rw [if_pos hpre]
    rw [parseAll_single hcmp, hlossy, process_cat_eqn]
    obtain ⟨u, rfl⟩ := startsWith_iff.mp hpre
    have hlen : sp.length + (if (none : Option Nat).isSome then 1 else 0) ≤ (sp ++ u).length := by
      simp
    rw [show processCat sp create none (sp ++ u) =
          some ((create ((sp ++ u).drop (sp.length + (if (none : Option Nat).isSome then 1 else 0)))).map
            (fun v => Argument.WithValue sp v (.Concatenated none)), false) from by
          simp [processCat, hlen]]
    rfl
  · intro d hpre
    obtain ⟨u, rfl⟩ := startsWith_iff.mp hpre
    have hsw : startsWithB (sp ++ [d] ++ u) sp = true := by
      rw [List.append_assoc]
      exact startsWith_append sp ([d] ++ u)
    have hlt : sp.length < (sp ++ [d] ++ u).length := by simp
    have hget : (sp ++ [d] ++ u).getD sp.length 0 = d := by
      rw [List.append_assoc, List.getD_append_right sp ([d] ++ u) 0 sp.length le_rfl,
        Nat.sub_self]
      rfl
    have hcmp : (ArgInfo.TakeArg sp create (.Concatenated (some d))).cmp (lossy (sp ++ [d] ++ u)) = .eq := by
      rw [hlossy]
      unfold ArgInfo.cmp
      dsimp only
      rw [if_pos ⟨hlt, hsw⟩, hget]
      exact byteCmp_self d
    rw [parseAll_single hcmp, hlossy, process_cat_eqn]
    have hlen : sp.length + (if (some d).isSome then 1 else 0) ≤ (sp ++ [d] ++ u).length := by
      simp
    rw [show processCat sp create (some d) (sp ++ [d] ++ u) =
          some ((create ((sp ++ [d] ++ u).drop (sp.length + (if (some d).isSome then 1 else 0)))).map
            (fun v => Argument.WithValue sp v (.Concatenated (some d))), false) from by
          simp [processCat, hlen]]
    rfl

theorem c3_witness :
    parseAll [ArgInfo.TakeArg (ascii "-hoge") Except.ok (.Concatenated none)]
        [ascii "-hogevalue"] =
      some [Except.ok (Argument.WithValue (ascii "-hoge") (ascii "value")
        (.Concatenated none))] ∧
    parseAll [ArgInfo.TakeArg (ascii "-hoge") Except.ok (.Concatenated (some 0x3D))]
        [ascii "-hoge=value"] =
      some [Except.ok (Argument.WithValue (ascii "-hoge") (ascii "value")
        (.Concatenated (some 0x3D)))] := by
  constructor
  · have h := (c3_converter_bytes (ascii "-hoge") (ascii "-hogevalue") Except.ok
      (by decide)).1 (by decide)
    exact h
  · have h := (c3_converter_bytes (ascii "-hoge") (ascii "-hoge=value") Except.ok
      (by decide)).2 0x3D (by decide)
    exact h

/-! ## Claim C4 -/

/-- C4: evaluation at the failing input.  A CanBeConcatenated descriptor is
matched by ArgInfo::cmp only when the token equals the spelling exactly (cmp
has no arm for CanBeConcatenated), so the concatenated forms
"-qux=value" (delimiter Some) and "-quxvalue" (delimiter None) are rejected
as UnknownFlag instead of parsing to WithValue(..., CanBeSeparated(d)). -/
theorem c4_concatenated_form_rejected :
    parseAll [ArgInfo.TakeArg (ascii "-qux") Except.ok (.CanBeConcatenated (some 0x3D))]
        [ascii "-qux=value"] =
      some [Except.ok (Argument.UnknownFlag (ascii "-qux=value"))] ∧
    parseAll [ArgInfo.TakeArg (ascii "-qux") Except.ok (.CanBeConcatenated none)]
        [ascii "-quxvalue"] =
      some [Except.ok (Argument.UnknownFlag (ascii "-quxvalue"))] :=
  ⟨by decide, by decide⟩

/-! ## Claim C5 -/

/-- C5: evaluation at the failing input.  With the well-sorted one-entry table
for the Concatenated(Some '=') descriptor "-foo", the token "-foo" is matched
by the search (cmp falls through to flag_str comparison, Equal), and process
then slices arg[5..] out of a 4-byte token: an out-of-bounds panic that is
present in release mode (none models the panic). -/
theorem c5_release_panic :
    parseAll [ArgInfo.TakeArg (ascii "-foo") Except.ok (.Concatenated (some 0x3D))]
      [ascii "-foo"] = none :=
  by decide

/-! ## Claim C6 -/

/-- C6: for a CanBeSeparated or CanBeConcatenated descriptor whose spelling is
a UTF-8 string, when the input token equals the spelling exactly and no next
token exists: with no delimiter the parser emits
WithValue(name, convert(""), Concatenated(None)); with a Some delimiter it
emits the UnexpectedEndOfArgs error for that item. -/
theorem c6_exact_token_no_next {T : Type} (sp : List Nat)
    (create : List Nat → ArgResult T) (hsp : validUtf8 sp = true)
    (mk : Option Nat → ArgDisposition)
    (hmk : mk = ArgDisposition.CanBeSeparated ∨ mk = ArgDisposition.CanBeConcatenated) :
    parseAll [ArgInfo.TakeArg sp create (mk none)] [sp] =
      some [(create []).map (fun v => Argument.WithValue sp v (.Concatenated none))] ∧
    (∀ d, parseAll [ArgInfo.TakeArg sp create (mk (some d))] [sp] =
      some [Except.error ArgError.UnexpectedEndOfArgs]) := by
  have hlossy : lossy sp = sp := lossy_of_valid hsp
  rcases hmk with rfl | rfl
  · constructor
    · rw [parseAll_single (by rw [hlossy]; exact cmp_self_cbs_none sp create),
        hlossy, process_cbs_eqn, processCanBe_sep_nil_none_any]
      rfl
    · intro d
      rw [parseAll_single (by rw [hlossy]; exact cmp_self_cbs_some sp create d),
        hlossy, process_cbs_eqn, processCanBe_sep_nil_some]
      rfl
  · constructor
    · rw [parseAll_single (by rw [hlossy]; exact cmp_self_cbc sp create none),
        hlossy, process_cbc_eqn, processCanBe_sep_nil_none_any]
      rfl
    · intro d
      rw [parseAll_single (by rw [hlossy]; exact cmp_self_cbc sp create (some d)),
        hlossy, process_cbc_eqn, processCanBe_sep_nil_some]
      rfl

theorem c6_witness :
    parseAll [ArgInfo.TakeArg (ascii "-qux") Except.ok (ArgDisposition.CanBeSeparated none)]
        [ascii "-qux"] =
      some [Except.ok (Argument.WithValue (ascii "-qux") ([] : List Nat)
        (.Concatenated none))] ∧
    parseAll [ArgInfo.TakeArg (ascii "-qux") Except.ok
        (ArgDisposition.CanBeSeparated (some 0x3D))] [ascii "-qux"] =
      some [Except.error ArgError.UnexpectedEndOfArgs] := by
  obtain ⟨h1, h2⟩ := c6_exact_token_no_next (ascii "-qux") Except.ok (by decide)
    ArgDisposition.CanBeSeparated (Or.inl rfl)
  exact ⟨h1, h2 0x3D⟩

/-! ## Claim C7 -/

/-- C7: normalize is idempotent, and only WithValue results carrying a
CanBeConcatenated or CanBeSeparated disposition are ever changed; every
other parse result passes through normalize unchanged. -/
theorem c7_normalize_idempotent {T : Type} (r : Argument T) (p : NormalizedDisposition) :
    (r.normalize p).normalize p = r.normalize p ∧
    (r.normalize p = r ∨ r.isCanBeValue = true) := by
  rcases r with s | s | ⟨s, v⟩ | ⟨s, v, d⟩
  · cases p <;> simp [Argument.normalize, Argument.isCanBeValue]
  · cases p <;> simp [Argument.normalize, Argument.isCanBeValue]
  · cases p <;> simp [Argument.normalize, Argument.isCanBeValue]
  · rcases d with _ | d | d | d <;> cases p <;>
      simp [Argument.normalize, Argument.isCanBeValue]

/-! ## Claim C8 -/

/-- C8: when the fetch from the backend fails, get returns Miss, never Error;
an Error result arises only from a successfully fetched blob that fails to
decode. -/
theorem c8_get_error_collapses_to_miss {F E R : Type} (fetch : Except F (List Nat))
    (decode : List Nat → Except E R) :
    (∀ f, fetch = .error f → s3CacheGet fetch decode = .Miss) ∧
    (∀ e, s3CacheGet fetch decode = .Error e →
      ∃ body, fetch = .ok body ∧ decode body = .error e) := by
  constructor
  · intro f hf
    rw [hf]
    rfl
  · intro e he
    rcases fetch with f | body
    · simp [s3CacheGet] at he
    · unfold s3CacheGet at he
      dsimp only at he
      rcases hd : decode body with e' | r <;> rw [hd] at he <;> dsimp only at he
      · cases he
        exact ⟨body, rfl, hd⟩
      · cases he

theorem c8_witness :
    s3CacheGet (Except.error (0 : Nat)) (fun b => (Except.ok b : Except Nat (List Nat))) =
      Cache.Miss ∧
    ∃ body, (Except.ok (ascii "x") : Except Nat (List Nat)) = Except.ok body ∧
      (fun (_ : List Nat) => (Except.error (7 : Nat) : Except Nat (List Nat))) body =
        Except.error 7 :=
  ⟨(c8_get_error_collapses_to_miss (Except.error 0) _).1 0 rfl,
   (c8_get_error_collapses_to_miss (Except.ok (ascii "x")) _).2 7 rfl⟩

/-! ## Claim C9 -/

/-- C9 counterexample: the parser's error type has exactly one kind,
UnexpectedEndOfArgs — no InvalidValue kind exists — and the repository's two
converters accept every candidate, here shown at the concrete input "x". -/
theorem c9_counterexample :
    (∀ e : ArgError, e = ArgError.UnexpectedEndOfArgs) ∧
    osStringFromArg (ascii "x") = .ok (ascii "x") ∧
    pathBufFromArg (ascii "x") = .ok (ascii "x") :=
  ⟨fun e => match e with | .UnexpectedEndOfArgs => rfl, rfl, rfl⟩

/-- C9 (amended): the parser's error type contains only the
UnexpectedEndOfArgs kind, and the provided converters (OsString, PathBuf)
accept every candidate string, so no InvalidValue error ever arises. -/
theorem c9_no_invalid_value_kind :
    (∀ e : ArgError, e = ArgError.UnexpectedEndOfArgs) ∧
    (∀ x, osStringFromArg x = .ok x ∧ pathBufFromArg x = .ok x) :=
  ⟨fun e => match e with | .UnexpectedEndOfArgs => rfl, fun _ => ⟨rfl, rfl⟩⟩

/-! ## Claim C10 -/

/-- C10: for a layered table (A, B), when a token matches in both layers and
the two matched descriptors have byte-equal flag spellings, search returns
the secondary layer B's descriptor (the tie `a.flag_str() > b.flag_str()` is
false on equal spellings). -/
theorem c10_layered_equal_spelling_second_wins {T : Type}
    (A B : List (ArgInfo T)) (key : List Nat) (a b : ArgInfo T)
    (ha : searchList A key = some a) (hb : searchList B key = some b)
    (heq : a.flagStr = b.flagStr) :
    searchPair (A, B) key = some b := by
  unfold searchPair
  dsimp only
  rw [ha, hb]
  dsimp only
  rw [heq, lexCmp_self]

theorem c10_witness :
    searchPair ([ArgInfo.Flag (ascii "-include") (1 : Nat)],
                [ArgInfo.Flag (ascii "-include") (2 : Nat)]) (ascii "-include") =
      some (ArgInfo.Flag (ascii "-include") 2) :=
  c10_layered_equal_spelling_second_wins
    [ArgInfo.Flag (ascii "-include") 1] [ArgInfo.Flag (ascii "-include") 2]
    (ascii "-include") _ _ rfl rfl rfl

end Sccache
